import Mathlib

/-!
Formal model of the ACO TSP engine (`aco.py`).

The Python source is shallowly embedded: numpy matrices become `PyMat`
(a dimension plus an entry function, with bounds-checked access returning
`Except`), Python floats over distances become `WithTop ℚ` (positive
infinity is `⊤`; the loader that feeds the engine maps non-positive
distances to infinity, so finite distances are positive), exceptions
become the `PyErr` error type, and the random number stream consumed by
`random.choices` / `random.randint` becomes an explicit oracle
`rng : ℕ → ℕ` together with a counter of how many draws were consumed.
-/

namespace AcoTsp

attribute [local semireducible] Rat.mul Rat.inv Rat.add Rat.sub

/-- Python exception kinds raised by the engine code. -/
inductive PyErr where
  | valueError
  | indexError
  | typeError
  deriving DecidableEq

instance {ε α : Type} [DecidableEq ε] [DecidableEq α] : DecidableEq (Except ε α) :=
  fun x y =>
    match x, y with
    | .error a, .error b =>
        if h : a = b then .isTrue (by rw [h])
        else .isFalse (fun hc => h (by injection hc))
    | .error _, .ok _ => .isFalse (fun hc => Except.noConfusion hc)
    | .ok _, .error _ => .isFalse (fun hc => Except.noConfusion hc)
    | .ok a, .ok b =>
        if h : a = b then .isTrue (by rw [h])
        else .isFalse (fun hc => h (by injection hc))

/-- A Python float as used by the engine: an exact rational or `⊤` (numpy `inf`).
The NaN-producing operation the code can hit (0/0 when normalizing an all-zero
score vector) is modelled at its use site in `choose_city`. -/
abbrev PyFloat := WithTop ℚ

/-- `1 / d` as numpy computes it on the engine's distances: `1/inf = 0`.
Finite distances reaching the engine are positive (the file loader maps
non-positive distances to infinity), so the finite branch is plain inversion. -/
def invd : PyFloat → ℚ :=
  WithTop.recTopCoe 0 (fun q => q⁻¹)

/-- A numpy square matrix: a dimension and an entry function.  Out-of-range
indexing raises `IndexError`, which `get` models. -/
structure PyMat (α : Type) where
  dim : ℕ
  entry : ℕ → ℕ → α

def PyMat.get {α : Type} (m : PyMat α) (i j : ℕ) : Except PyErr α :=
  if i < m.dim ∧ j < m.dim then .ok (m.entry i j) else .error .indexError

/-- Writing one entry of a numpy matrix (`m[i, j] = v`). -/
def pMatSet (m : PyMat ℚ) (i j : ℕ) (v : ℚ) : PyMat ℚ :=
  ⟨m.dim, fun a b => if a = i ∧ b = j then v else m.entry a b⟩

/-- The `Path` dataclass: the edge list (`None` in the `Path(None)` sentinel)
and the total weight, whose dataclass default is `np.inf`. -/
structure Path where
  path : Option (List (ℕ × ℕ))
  weight : PyFloat := ⊤
  deriving DecidableEq

/-- A Python value that may be compared against a `Path` with the rich
comparison operators; anything that is not a `Path` must be rejected. -/
inductive PyVal where
  | pathV (p : Path)
  | intV (n : ℤ)
  | floatV (q : PyFloat)
  | noneV
  | strV (s : String)
  deriving DecidableEq

/-- `Path.__lt__`: weight comparison between two paths, `TypeError` otherwise. -/
def Path.lt (p : Path) (other : PyVal) : Except PyErr Bool :=
  match other with
  | .pathV q => .ok (decide (p.weight < q.weight))
  | _ => .error .typeError

/-- `Path.__gt__`. -/
def Path.gt (p : Path) (other : PyVal) : Except PyErr Bool :=
  match other with
  | .pathV q => .ok (decide (q.weight < p.weight))
  | _ => .error .typeError

/-- `Path.__le__`. -/
def Path.le (p : Path) (other : PyVal) : Except PyErr Bool :=
  match other with
  | .pathV q => .ok (decide (p.weight ≤ q.weight))
  | _ => .error .typeError

/-- `Path.__ge__`. -/
def Path.ge (p : Path) (other : PyVal) : Except PyErr Bool :=
  match other with
  | .pathV q => .ok (decide (q.weight ≤ p.weight))
  | _ => .error .typeError

/-- The `ACO` engine state: the distance matrix, the parameters stored by
`__init__`, and the mutable pheromone matrix. -/
structure ACO where
  cities : PyMat PyFloat
  n_cities : ℕ
  n_ants : ℕ
  n_iter : ℕ
  decay : ℚ
  alpha : ℤ
  beta : ℤ
  pheromones : PyMat ℚ
  random_start : Bool

/-- `ACO.__init__`: stores every parameter verbatim, initializes the pheromone
matrix to ones of the same shape as `cities`, and disables random start.
No validation of any kind is performed and no matrix entry is read. -/
def aco_init (cities : PyMat PyFloat) (n_cities n_ants n_iter : ℕ)
    (decay : ℚ) (alpha beta : ℤ) : ACO :=
  { cities := cities, n_cities := n_cities, n_ants := n_ants, n_iter := n_iter,
    decay := decay, alpha := alpha, beta := beta,
    pheromones := ⟨cities.dim, fun _ _ => 1⟩, random_start := false }

/-- `ACO.set_random_start`. -/
def set_random_start (A : ACO) (b : Bool) : ACO :=
  { A with random_start := b }

/-- `availables = set(range(self.n_cities)) - visited`, enumerated in the
fixed ascending order that the code uses consistently within one call. -/
def availables (A : ACO) (visited : List ℕ) : List ℕ :=
  (List.range A.n_cities).filter (fun y => decide (y ∉ visited))

/-- The score lambda of `choose_city`, after both matrix reads succeeded:
`pheromones[x, y] ** alpha * (1 / arcs[y]) ** beta`. -/
def scoreQ (A : ACO) (x y : ℕ) : ℚ :=
  A.pheromones.entry x y ^ A.alpha * invd (A.cities.entry x y) ^ A.beta

/-- The score lambda of `choose_city` with its two bounds-checked matrix
reads (`self.pheromones[x, y]` and `arcs[y]`, the row `arcs = cities[x]`
having been fetched already). -/
def score (A : ACO) (x y : ℕ) : Except PyErr ℚ := do
  let p ← A.pheromones.get x y
  let d ← A.cities.get x y
  .ok (p ^ A.alpha * invd d ^ A.beta)

/-- The per-candidate score loop of `choose_city`: the list of scores of the
available cities, with the first failing matrix access aborting the loop. -/
def mapME (f : ℕ → Except PyErr ℚ) : List ℕ → Except PyErr (List ℚ)
  | [] => .ok []
  | a :: t => do
      let b ← f a
      let r ← mapME f t
      .ok (b :: r)

/-- The selection performed by `random.choices(population, weights)` once its
sanity checks passed: an item is selectable exactly when its weight is
positive (zero-weight items occupy an empty span of the cumulative-weight
line and are never hit by the bisection), and the oracle value `r` picks one
of the selectable items.  The fallback branch is unreachable whenever the
weights sum to something positive. -/
def pyChoicesPick (pop : List ℕ) (weights : List ℚ) (r : ℕ) : ℕ :=
  let pos := (pop.zip weights).filterMap (fun c => if 0 < c.2 then some c.1 else none)
  match pos.get? (r % pos.length) with
  | some c => c
  | none => pop.headD 0

/-- `ACO.choose_city`.  Mirrors the source line by line: fetch the row
`arcs = self.cities[start]` (IndexError when `start` is out of range),
compute every candidate's score and their sum `complete_score`, normalize,
and call `random.choices`.  `random.choices` raises IndexError on an empty
population (`cum_weights[-1]`), and ValueError when `complete_score == 0`:
the normalizing divisions then produced NaN weights (numpy 0/0) whose total
fails its finiteness check. -/
def choose_city (A : ACO) (start : ℕ) (visited : List ℕ) (r : ℕ) : Except PyErr ℕ :=
  if start < A.cities.dim then
    match mapME (score A start) (availables A visited) with
    | .error e => .error e
    | .ok scores =>
        if availables A visited = [] then .error .indexError
        else if scores.sum = 0 then .error .valueError
        else .ok (pyChoicesPick (availables A visited)
            (scores.map (fun s => s / scores.sum)) r)
  else .error .indexError

/-- `visited.add(c)` on a Python set. -/
def pySetAdd (v : List ℕ) (c : ℕ) : List ℕ :=
  if c ∈ v then v else c :: v

/-- The running-total loop of `ACO.get_path_weight`:
`distance = 0; for move in path: distance += self.cities[move]`. -/
def sumWeights (A : ACO) : List (ℕ × ℕ) → PyFloat → Except PyErr PyFloat
  | [], acc => .ok acc
  | mv :: t, acc => do
      let d ← A.cities.get mv.1 mv.2
      sumWeights A t (acc + d)

/-- `ACO.get_path_weight`. -/
def get_path_weight (A : ACO) (path : List (ℕ × ℕ)) : Except PyErr PyFloat :=
  sumWeights A path 0

/-- The `for _ in range(self.n_cities - 1)` loop of `generate_path`: choose a
city, append the edge, mark it visited, advance.  Each `choose_city` call
consumes one random draw.  Returns the final position, visited set, edge
list, and draw counter. -/
def genLoop (A : ACO) : ℕ → ℕ → List ℕ → List (ℕ × ℕ) → (ℕ → ℕ) → ℕ →
    Except PyErr (ℕ × List ℕ × List (ℕ × ℕ) × ℕ)
  | 0, previous, visited, path, _, k => .ok (previous, visited, path, k)
  | steps + 1, previous, visited, path, rng, k => do
      let city ← choose_city A previous visited (rng k)
      genLoop A steps city (pySetAdd visited city) (path ++ [(previous, city)]) rng (k + 1)

/-- `ACO.generate_path`: run the loop from the start city, append the closing
edge back to the start, and evaluate the weight. -/
def generate_path (A : ACO) (start : ℕ) (rng : ℕ → ℕ) (k : ℕ) :
    Except PyErr (Path × ℕ) := do
  let st ← genLoop A (A.n_cities - 1) start (pySetAdd [] start) [] rng k
  let weight ← get_path_weight A (st.2.2.1 ++ [(st.1, start)])
  .ok (⟨some (st.2.2.1 ++ [(st.1, start)]), weight⟩, st.2.2.2)

/-- `random.randint(a, b)`: uniform over the closed interval `[a, b]`
(the upper bound is included). -/
def pyRandint (a b r : ℕ) : ℕ :=
  a + r % (b - a + 1)

/-- The ant loop of `ACO.get_paths`.  When random start is enabled each ant
first consumes one draw for `random.randint(0, self.n_cities)`. -/
def getPathsLoop (A : ACO) : ℕ → List Path → (ℕ → ℕ) → ℕ →
    Except PyErr (List Path × ℕ)
  | 0, acc, _, k => .ok (acc, k)
  | m + 1, acc, rng, k =>
      let startk : ℕ × ℕ :=
        if A.random_start then (pyRandint 0 A.n_cities (rng k), k + 1) else (0, k)
      do
        let pk ← generate_path A startk.1 rng startk.2
        getPathsLoop A m (acc ++ [pk.1]) rng pk.2

/-- `ACO.get_paths`. -/
def get_paths (A : ACO) (rng : ℕ → ℕ) (k : ℕ) : Except PyErr (List Path × ℕ) :=
  getPathsLoop A A.n_ants [] rng k

/-- One iteration of the `add_pheromones` loop body:
`self.pheromones[move] += 1 / self.cities[move]` followed by the symmetric
`self.pheromones[move[::-1]] += 1 / self.cities[move[::-1]]`. -/
def add_one_move (A : ACO) (mv : ℕ × ℕ) : Except PyErr ACO := do
  let p ← A.pheromones.get mv.1 mv.2
  let d ← A.cities.get mv.1 mv.2
  let p2 ← (pMatSet A.pheromones mv.1 mv.2 (p + invd d)).get mv.2 mv.1
  let d2 ← A.cities.get mv.2 mv.1
  .ok { A with pheromones := pMatSet (pMatSet A.pheromones mv.1 mv.2 (p + invd d)) mv.2 mv.1 (p2 + invd d2) }

/-- The `for move in path.path` loop of `add_pheromones`. -/
def addPherLoop : ACO → List (ℕ × ℕ) → Except PyErr ACO
  | A, [] => .ok A
  | A, mv :: t => do
      let A1 ← add_one_move A mv
      addPherLoop A1 t

/-- `ACO.add_pheromones`.  Iterating over `path.path` when it is `None`
(the `Path(None)` sentinel) raises TypeError. -/
def add_pheromones (A : ACO) (p : Path) : Except PyErr ACO :=
  match p.path with
  | none => .error .typeError
  | some edges => addPherLoop A edges

/-- `ACO.evaporation`: `self.pheromones *= self.decay`, a global in-place
scaling of every entry. -/
def evaporation (A : ACO) : ACO :=
  { A with pheromones := ⟨A.pheromones.dim, fun i j => A.pheromones.entry i j * A.decay⟩ }

/-- Python `min` over a list of `Path` values: ValueError on an empty list,
otherwise the first element of minimal weight (`min` keeps the current best
unless a later item compares strictly smaller with `__lt__`). -/
def pyMin (l : List Path) : Except PyErr Path :=
  match l with
  | [] => .error .valueError
  | h :: t => .ok (t.foldl (fun best x => if x.weight < best.weight then x else best) h)

/-- The `for _ in range(self.n_iter)` loop of `find_best`: generate the ants'
paths, take the iteration best, replace the global best on a strict `__lt__`
comparison of weights, reinforce, evaporate. -/
def findLoop (A : ACO) : ℕ → Path → (ℕ → ℕ) → ℕ →
    Except PyErr (Path × ACO × ℕ)
  | 0, res, _, k => .ok (res, A, k)
  | m + 1, res, rng, k => do
      let pk ← get_paths A rng k
      let best_path ← pyMin pk.1
      let A1 ← add_pheromones A best_path
      findLoop (evaporation A1) m
        (if best_path.weight < res.weight then best_path else res) rng pk.2

/-- `ACO.find_best`: the global best starts as the sentinel `Path(None)`
whose dataclass-default weight is `np.inf`. -/
def find_best (A : ACO) (rng : ℕ → ℕ) (k : ℕ) : Except PyErr (Path × ACO × ℕ) :=
  findLoop A A.n_iter ⟨none, ⊤⟩ rng k

/-- One pheromone-matrix update step, for stating invariants that hold across
arbitrary interleavings of reinforcement and evaporation. -/
inductive PStep where
  | reinforce (p : Path)
  | evap

/-- Run a sequence of pheromone updates against the engine state. -/
def runSteps : ACO → List PStep → Except PyErr ACO
  | A, [] => .ok A
  | A, .reinforce p :: t =>
      match add_pheromones A p with
      | .error e => .error e
      | .ok A1 => runSteps A1 t
  | A, .evap :: t => runSteps (evaporation A) t

/-- `isChainFrom s l e`: the edge list `l` chains from `s` to `e` — the first
edge leaves `s`, each edge leaves the city the previous edge entered, and the
last edge enters `e`. -/
def isChainFrom : ℕ → List (ℕ × ℕ) → ℕ → Bool
  | s, [], e => s == e
  | s, (a, b) :: t, e => a == s && isChainFrom b t e

/-! Concrete instances used to exercise the engine on explicit inputs. -/

/-- Two cities at distance 1, no self loops. -/
def mat2 : PyMat PyFloat :=
  ⟨2, fun i j => if (i = 0 ∧ j = 1) ∨ (i = 1 ∧ j = 0) then ((1 : ℚ) : PyFloat) else ⊤⟩

/-- Engine on `mat2`: one ant, one iteration, `decay = alpha = beta = 1`. -/
def acoW : ACO := aco_init mat2 2 1 1 1 1 1

/-- Engine on `mat2` with `decay = 1/2`. -/
def acoHalf : ACO := aco_init mat2 2 1 1 (1 / 2) 1 1

/-- The tour the single ant of `acoW` produces from city 0. -/
def pW : Path := ⟨some [(0, 1), (1, 0)], ((2 : ℚ) : PyFloat)⟩

/-- A constant-zero random oracle. -/
def rng0 : ℕ → ℕ := fun _ => 0

/-- A constant-two random oracle. -/
def rng2 : ℕ → ℕ := fun _ => 2

/-- Two cities with no finite edge at all: every candidate score is zero. -/
def matInf : PyMat PyFloat := ⟨2, fun _ _ => ⊤⟩

/-- Engine on `matInf`. -/
def acoInf : ACO := aco_init matInf 2 1 1 1 1 1

/-- A single city at self-distance 5. -/
def mat1 : PyMat PyFloat := ⟨1, fun _ _ => ((5 : ℚ) : PyFloat)⟩

/-- Engine constructed with `n_cities = 1`, below the documented minimum. -/
def aco1 : ACO := aco_init mat1 1 1 1 1 1 1

/-- An empty distance matrix. -/
def mat0 : PyMat PyFloat := ⟨0, fun _ _ => ⊤⟩

/-- Engine constructed with `n_cities = 0`. -/
def aco0 : ACO := aco_init mat0 0 1 1 1 1 1

/-- Engine on `mat2` with random ant starts enabled. -/
def acoRS : ACO := set_random_start (aco_init mat2 2 1 1 1 1 1) true

/-- Three cities on a path `0 - 1 - 2` of unit edges; `0` and `2` are not
directly connected, so the forced closing edge of a tour from 0 is infinite. -/
def mat3 : PyMat PyFloat :=
  ⟨3, fun i j =>
    if (i = 0 ∧ j = 1) ∨ (i = 1 ∧ j = 0) ∨ (i = 1 ∧ j = 2) ∨ (i = 2 ∧ j = 1)
    then ((1 : ℚ) : PyFloat) else ⊤⟩

/-- Engine on `mat3`. -/
def aco3 : ACO := aco_init mat3 3 1 1 1 1 1

/-- The engine state after reinforcing the single edge `(0, 1)` on `acoW`. -/
def acoWA : ACO :=
  match add_pheromones acoW ⟨some [(0, 1)], ((1 : ℚ) : PyFloat)⟩ with
  | .ok A => A
  | .error _ => acoW

/-- The engine state after reinforcing the full tour `pW` on `acoW`. -/
def acoWB : ACO :=
  match add_pheromones acoW pW with
  | .ok A => A
  | .error _ => acoW

/-- The state reached from `acoHalf` by one reinforcement and one evaporation. -/
def acoHalf2 : ACO :=
  match runSteps acoHalf [PStep.reinforce ⟨some [(0, 1)], ((1 : ℚ) : PyFloat)⟩, PStep.evap] with
  | .ok A => A
  | .error _ => acoHalf

/-! Helper lemmas about the embedded operations. -/

theorem bind_ok_iff {α β : Type} {x : Except PyErr α} {f : α → Except PyErr β} {b : β} :
    (x >>= f) = .ok b ↔ ∃ a, x = .ok a ∧ f a = .ok b := by
  cases x with
  | error e => simp [Bind.bind, Except.bind]
  | ok a => simp [Bind.bind, Except.bind]

theorem mem_availables {A : ACO} {visited : List ℕ} {c : ℕ} :
    c ∈ availables A visited ↔ c < A.n_cities ∧ c ∉ visited := by
  simp [availables, List.mem_filter, List.mem_range]

theorem mem_pySetAdd {v : List ℕ} {c a : ℕ} : a ∈ pySetAdd v c ↔ a = c ∨ a ∈ v := by
  by_cases h : c ∈ v
  · simp only [pySetAdd, if_pos h]
    constructor
    · exact fun ha => Or.inr ha
    · rintro (rfl | ha)
      · exact h
      · exact ha
  · simp only [pySetAdd, if_neg h, List.mem_cons]

theorem mapME_ok {f : ℕ → Except PyErr ℚ} {g : ℕ → ℚ} :
    ∀ {l : List ℕ}, (∀ a ∈ l, f a = .ok (g a)) → mapME f l = .ok (l.map g)
  | [], _ => rfl
  | a :: t, h => by
      have ht : mapME f t = .ok (t.map g) :=
        mapME_ok (fun x hx => h x (List.mem_cons_of_mem a hx))
      simp [mapME, h a (List.mem_cons_self a t), ht, Bind.bind, Except.bind]

theorem score_ok {A : ACO} {x y : ℕ} (hpd : A.pheromones.dim = A.cities.dim)
    (hx : x < A.cities.dim) (hy : y < A.cities.dim) :
    score A x y = .ok (scoreQ A x y) := by
  simp [score, PyMat.get, hpd, hx, hy, scoreQ, Bind.bind, Except.bind]

theorem sum_map_div (l : List ℚ) (T : ℚ) :
    (l.map (fun s => s / T)).sum = l.sum / T := by
  induction l with
  | nil => simp
  | cons a t ih => simp [ih, add_div]

theorem pyChoicesPick_mem {pop : List ℕ} {w : List ℚ} {r : ℕ} (hne : pop ≠ []) :
    pyChoicesPick pop w r ∈ pop := by
  unfold pyChoicesPick
  cases hg : ((pop.zip w).filterMap
      (fun c => if 0 < c.2 then some c.1 else none)).get?
      (r % ((pop.zip w).filterMap (fun c => if 0 < c.2 then some c.1 else none)).length) with
  | none =>
      simp only [hg]
      cases pop with
      | nil => exact absurd rfl hne
      | cons a t => simp [List.headD]
  | some c =>
      simp only [hg]
      have hc := List.get?_mem hg
      obtain ⟨⟨c2, wq⟩, hmem, hif⟩ := List.mem_filterMap.mp hc
      have hcc : c2 = c := by
        by_cases hw : 0 < wq
        · simpa [hw] using hif
        · simp [hw] at hif
      exact hcc ▸ (List.of_mem_zip hmem).1

theorem choose_city_ok_mem {A : ACO} {start : ℕ} {visited : List ℕ} {r : ℕ} {c : ℕ}
    (h : choose_city A start visited r = .ok c) : c ∈ availables A visited := by
  unfold choose_city at h
  split at h
  · split at h
    · exact Except.noConfusion h
    · split at h
      · exact Except.noConfusion h
      · split at h
        · exact Except.noConfusion h
        · rename_i hav hz
          have := Except.ok.inj h
          exact this ▸ pyChoicesPick_mem hav
  · exact Except.noConfusion h

/-! Claim theorems (with their witnesses and counterexamples). -/

/-- Claim C10: comparing a `Path` to any non-`Path` value with any of the four
rich comparison operators raises `TypeError`; between two `Path` values each
operator is decided solely by comparing the `weight` fields. -/
theorem path_compare_spec (p q : Path) (v : PyVal) (hv : ∀ x, v ≠ PyVal.pathV x) :
    (Path.lt p (.pathV q) = .ok (decide (p.weight < q.weight))
      ∧ Path.gt p (.pathV q) = .ok (decide (q.weight < p.weight))
      ∧ Path.le p (.pathV q) = .ok (decide (p.weight ≤ q.weight))
      ∧ Path.ge p (.pathV q) = .ok (decide (q.weight ≤ p.weight)))
  ∧ (Path.lt p v = .error .typeError ∧ Path.gt p v = .error .typeError
      ∧ Path.le p v = .error .typeError ∧ Path.ge p v = .error .typeError) := by
  refine ⟨⟨rfl, rfl, rfl, rfl⟩, ?_⟩
  cases v with
  | pathV x => exact absurd rfl (hv x)
  | intV n => exact ⟨rfl, rfl, rfl, rfl⟩
  | floatV q2 => exact ⟨rfl, rfl, rfl, rfl⟩
  | noneV => exact ⟨rfl, rfl, rfl, rfl⟩
  | strV s => exact ⟨rfl, rfl, rfl, rfl⟩

/-- Witness for C10 at concrete values. -/
theorem path_compare_spec_witness :
    (Path.lt pW (.pathV pW) = .ok (decide (pW.weight < pW.weight))
      ∧ Path.gt pW (.pathV pW) = .ok (decide (pW.weight < pW.weight))
      ∧ Path.le pW (.pathV pW) = .ok (decide (pW.weight ≤ pW.weight))
      ∧ Path.ge pW (.pathV pW) = .ok (decide (pW.weight ≤ pW.weight)))
  ∧ (Path.lt pW (PyVal.intV 3) = .error .typeError
      ∧ Path.gt pW (PyVal.intV 3) = .error .typeError
      ∧ Path.le pW (PyVal.intV 3) = .error .typeError
      ∧ Path.ge pW (PyVal.intV 3) = .error .typeError) :=
  path_compare_spec pW pW (PyVal.intV 3) (fun _ h => PyVal.noConfusion h)

/-- Claim C4 (code bug): `random.randint(0, n_cities)` includes the upper
bound, so with random start enabled the draw 2 on a 2-city instance yields
start city 2 = `n_cities`, and tour generation then crashes with an
IndexError while reading row 2 of the 2×2 distance matrix. -/
theorem randint_upper_bound_crash :
    pyRandint 0 acoRS.n_cities 2 = acoRS.n_cities
  ∧ get_paths acoRS rng2 0 = .error .indexError := by decide

/-- Counterexample to claim C2: on a 2-city instance whose only candidate
edge is infinite every score is zero, and `choose_city` raises (the NaN
weights fail `random.choices`' checks) instead of falling back to a uniform
choice; the error propagates out of `generate_path` to the caller. -/
theorem choose_city_degenerate_raises :
    choose_city acoInf 0 [0] 0 = .error .valueError
  ∧ generate_path acoInf 0 rng0 0 = .error .valueError := by decide

/-- Claim C2 as amended: whenever every remaining candidate's score is zero,
`choose_city` fails with a ValueError (there is no uniform fallback), and the
failure surfaces to the caller. -/
theorem choose_city_all_zero (A : ACO) (start : ℕ) (visited : List ℕ) (r : ℕ)
    (hpd : A.pheromones.dim = A.cities.dim)
    (hn : A.n_cities ≤ A.cities.dim) (hs : start < A.cities.dim)
    (hne : availables A visited ≠ [])
    (h0 : ∀ y ∈ availables A visited, scoreQ A start y = 0) :
    choose_city A start visited r = .error .valueError := by
  have hsc : mapME (score A start) (availables A visited) =
      .ok ((availables A visited).map (scoreQ A start)) :=
    mapME_ok (fun a ha => score_ok hpd hs (lt_of_lt_of_le (mem_availables.mp ha).1 hn))
  have hz : ((availables A visited).map (scoreQ A start)).sum = 0 := by
    apply List.sum_eq_zero
    intro x hx
    obtain ⟨y, hy, rfl⟩ := List.mem_map.mp hx
    exact h0 y hy
  simp [choose_city, hs, hsc, hne, hz]

/-- Witness for the amended C2 at a concrete degenerate state. -/
theorem choose_city_all_zero_witness :
    choose_city acoInf 1 [1] 3 = .error .valueError :=
  choose_city_all_zero acoInf 1 [1] 3 (by decide) (by decide) (by decide)
    (by decide) (by decide)

/-- Counterexample to claim C3: nothing rejects `n_cities < 2`.  With
`n_cities = 1` the whole search runs and returns the self-loop tour
`[(0, 0)]` (reading the matrix diagonal), and with `n_cities = 0` the
failure is an IndexError raised by a matrix access inside the first
iteration — not an InvalidInput rejection before the search. -/
theorem no_invalid_input_validation :
    (find_best aco1 rng0 0).map (fun rr => rr.1.path) = .ok (some [(0, 0)])
  ∧ (find_best aco0 rng0 0).map (fun _ => (0 : ℕ)) = .error .indexError := by decide

/-- Claim C3 as amended: construction performs no validation at all — for
`n_cities < 2` the constructor still succeeds, stores every parameter
verbatim, and touches only the matrix shape (the pheromone matrix is ones of
the same dimension), never reading a distance entry. -/
theorem aco_init_no_validation (c : PyMat PyFloat) (n na ni : ℕ) (d : ℚ)
    (al be : ℤ) (_hn : n < 2) :
    aco_init c n na ni d al be =
      { cities := c, n_cities := n, n_ants := na, n_iter := ni, decay := d,
        alpha := al, beta := be,
        pheromones := ⟨c.dim, fun _ _ => 1⟩, random_start := false } :=
  rfl

/-- Witness for the amended C3 at a concrete undersized instance. -/
theorem aco_init_no_validation_witness :
    aco_init mat1 1 1 1 1 1 1 =
      { cities := mat1, n_cities := 1, n_ants := 1, n_iter := 1, decay := 1,
        alpha := 1, beta := 1,
        pheromones := ⟨mat1.dim, fun _ _ => 1⟩, random_start := false } :=
  aco_init_no_validation mat1 1 1 1 1 1 1 (by decide)

/-- Claim C6: the weight stored in every completed `Path` is exactly what
`get_path_weight` recomputes from its stored edge list against the same
distance matrix. -/
theorem get_path_weight_consistent (A : ACO) (start : ℕ) (rng : ℕ → ℕ) (k : ℕ)
    (p : Path) (k2 : ℕ) (h : generate_path A start rng k = .ok (p, k2)) :
    ∃ edges, p.path = some edges ∧ get_path_weight A edges = .ok p.weight := by
  unfold generate_path at h
  rw [bind_ok_iff] at h
  obtain ⟨st, hg, h⟩ := h
  rw [bind_ok_iff] at h
  obtain ⟨w, hw, h⟩ := h
  have hp : p = ⟨some (st.2.2.1 ++ [(st.1, start)]), w⟩ :=
    (congrArg Prod.fst (Except.ok.inj h)).symm
  exact ⟨st.2.2.1 ++ [(st.1, start)], by rw [hp], by rw [hp]; exact hw⟩

/-- Witness for C6 on the concrete 2-city tour. -/
theorem get_path_weight_consistent_witness :
    ∃ edges, pW.path = some edges ∧ get_path_weight acoW edges = .ok pW.weight :=
  get_path_weight_consistent acoW 0 rng0 0 pW 1 (by decide)

theorem isChainFrom_append {s e f2 : ℕ} {l : List (ℕ × ℕ)}
    (h : isChainFrom s l e = true) :
    isChainFrom s (l ++ [(e, f2)]) f2 = true := by
  induction l generalizing s with
  | nil =>
      simp [isChainFrom] at h
      simp [isChainFrom, h]
  | cons hd t ih =>
      obtain ⟨a, b⟩ := hd
      simp [isChainFrom] at h
      simp [isChainFrom, h.1, ih h.2]

theorem chain_map_fst {e : ℕ} {l : List (ℕ × ℕ)} {s : ℕ}
    (h : isChainFrom s l e = true) :
    l.map Prod.fst ++ [e] = s :: l.map Prod.snd := by
  induction l generalizing s with
  | nil =>
      simp [isChainFrom] at h
      simp [h]
  | cons hd t ih =>
      obtain ⟨a, b⟩ := hd
      simp [isChainFrom] at h
      simp [h.1, ih h.2]

theorem genLoop_ok {A : ACO} : ∀ (steps : ℕ) (previous : ℕ) (visited : List ℕ)
    (path : List (ℕ × ℕ)) (rng : ℕ → ℕ) (k : ℕ) {previous2 : ℕ} {visited2 : List ℕ}
    {path2 : List (ℕ × ℕ)} {k2 : ℕ},
    genLoop A steps previous visited path rng k = .ok (previous2, visited2, path2, k2) →
    ∃ newE : List (ℕ × ℕ),
      path2 = path ++ newE ∧
      newE.length = steps ∧
      isChainFrom previous newE previous2 = true ∧
      (newE.map Prod.snd).Nodup ∧
      ∀ c ∈ newE.map Prod.snd, c < A.n_cities ∧ c ∉ visited := by
  intro steps
  induction steps with
  | zero =>
      intro prev vis path rng k p2 v2 pa2 k2 h
      simp only [genLoop, Except.ok.injEq, Prod.mk.injEq] at h
      obtain ⟨rfl, rfl, rfl, rfl⟩ := h
      exact ⟨[], by simp, rfl, by simp [isChainFrom], by simp, by simp⟩
  | succ n ih =>
      intro prev vis path rng k p2 v2 pa2 k2 h
      simp only [genLoop] at h
      rw [bind_ok_iff] at h
      obtain ⟨city, hc, h⟩ := h
      obtain ⟨E1, hpath, hlen, hchain, hnd, hfresh⟩ :=
        ih city (pySetAdd vis city) (path ++ [(prev, city)]) rng (k + 1) h
      have hcity := mem_availables.mp (choose_city_ok_mem hc)
      refine ⟨(prev, city) :: E1, ?_, ?_, ?_, ?_, ?_⟩
      · simpa using hpath
      · simp [hlen]
      · simp [isChainFrom, hchain]
      · rw [List.map_cons, List.nodup_cons]
        exact ⟨fun hcon => (hfresh city hcon).2 (mem_pySetAdd.mpr (Or.inl rfl)), hnd⟩
      · intro c hcmem
        simp only [List.map_cons, List.mem_cons] at hcmem
        rcases hcmem with rfl | hct
        · exact hcity
        · obtain ⟨hlt, hnv⟩ := hfresh c hct
          exact ⟨hlt, fun hcv => hnv (mem_pySetAdd.mpr (Or.inr hcv))⟩

/-- Claim C1: from any start city in range on an instance with at least two
cities, every `Path` that `generate_path` returns is one Hamiltonian cycle:
its edge list has exactly `n_cities` edges, the edges' sources are a
permutation of all the cities (each appears exactly once), consecutive edges
chain, and the last edge returns to the start. -/
theorem generate_path_hamiltonian (A : ACO) (start : ℕ) (rng : ℕ → ℕ) (k : ℕ)
    (p : Path) (k2 : ℕ) (hn : 2 ≤ A.n_cities) (hs : start < A.n_cities)
    (h : generate_path A start rng k = .ok (p, k2)) :
    ∃ edges : List (ℕ × ℕ),
      p.path = some edges ∧
      edges.length = A.n_cities ∧
      (edges.map Prod.fst).Perm (List.range A.n_cities) ∧
      isChainFrom start edges start = true := by
  unfold generate_path at h
  rw [bind_ok_iff] at h
  obtain ⟨⟨prev2, vis2, path2, kk⟩, hg, h⟩ := h
  dsimp only at h
  rw [bind_ok_iff] at h
  obtain ⟨w, hw, h⟩ := h
  obtain ⟨newE, hpath, hlen, hchain, hnd, hfresh⟩ :=
    genLoop_ok (A := A) (A.n_cities - 1) start (pySetAdd [] start) [] rng k hg
  simp only [List.nil_append] at hpath
  have hp : p = ⟨some (newE ++ [(prev2, start)]), w⟩ := by
    rw [← hpath]
    exact (congrArg Prod.fst (Except.ok.inj h)).symm
  have hstartset : pySetAdd [] start = [start] := by simp [pySetAdd]
  rw [hstartset] at hfresh
  have hfst : (newE ++ [(prev2, start)]).map Prod.fst = start :: newE.map Prod.snd := by
    rw [List.map_append]
    simpa using chain_map_fst hchain
  have hnodup : (start :: newE.map Prod.snd).Nodup := by
    rw [List.nodup_cons]
    refine ⟨fun hcon => ?_, hnd⟩
    exact (hfresh start hcon).2 (List.mem_singleton.mpr rfl)
  have hsub : (start :: newE.map Prod.snd) ⊆ List.range A.n_cities := by
    intro c hcm
    rcases List.mem_cons.mp hcm with rfl | hct
    · exact List.mem_range.mpr hs
    · exact List.mem_range.mpr (hfresh c hct).1
  have hlength : (start :: newE.map Prod.snd).length = A.n_cities := by
    simp [hlen]
    omega
  refine ⟨newE ++ [(prev2, start)], by rw [hp], ?_, ?_, isChainFrom_append hchain⟩
  · simp [hlen]
    omega
  · rw [hfst]
    exact (List.subperm_of_subset hnodup hsub).perm_of_length_le
      (by simp [hlength])

/-- Witness for C1 on the concrete 2-city tour produced by `acoW`. -/
theorem generate_path_hamiltonian_witness :
    ∃ edges : List (ℕ × ℕ),
      pW.path = some edges ∧
      edges.length = acoW.n_cities ∧
      (edges.map Prod.fst).Perm (List.range acoW.n_cities) ∧
      isChainFrom 0 edges 0 = true :=
  generate_path_hamiltonian acoW 0 rng0 0 pW 1 (by decide) (by decide) (by decide)

theorem zip_self_map (g : ℕ → ℚ) :
    ∀ l : List ℕ, l.zip (l.map g) = l.map (fun x => (x, g x))
  | [] => rfl
  | a :: t => by simp [zip_self_map g t]

theorem pyChoicesPick_map_reaches (pop : List ℕ) (g : ℕ → ℚ) (y : ℕ)
    (hy : y ∈ pop) (hpos : 0 < g y) :
    ∃ r2, pyChoicesPick pop (pop.map g) r2 = y := by
  have hposlist :
      (pop.zip (pop.map g)).filterMap (fun c => if 0 < c.2 then some c.1 else none) =
      pop.filterMap (fun x => if 0 < g x then some x else none) := by
    rw [zip_self_map g pop, List.filterMap_map]
    rfl
  have hymem : y ∈ pop.filterMap (fun x => if 0 < g x then some x else none) :=
    List.mem_filterMap.mpr ⟨y, hy, by rw [if_pos hpos]⟩
  have hlt := List.indexOf_lt_length.mpr hymem
  refine ⟨List.indexOf y (pop.filterMap (fun x => if 0 < g x then some x else none)), ?_⟩
  simp only [pyChoicesPick, hposlist]
  rw [Nat.mod_eq_of_lt hlt, List.get?_eq_get hlt, List.indexOf_get]

theorem choose_city_eq (A : ACO) (start : ℕ) (visited : List ℕ) (r : ℕ)
    (hpd : A.pheromones.dim = A.cities.dim)
    (hn : A.n_cities ≤ A.cities.dim) (hs : start < A.cities.dim)
    (hT : ((availables A visited).map (scoreQ A start)).sum ≠ 0) :
    choose_city A start visited r = .ok (pyChoicesPick (availables A visited)
      (((availables A visited).map (scoreQ A start)).map
        (fun s => s / ((availables A visited).map (scoreQ A start)).sum)) r) := by
  have hsc : mapME (score A start) (availables A visited) =
      .ok ((availables A visited).map (scoreQ A start)) :=
    mapME_ok (fun a ha => score_ok hpd hs (lt_of_lt_of_le (mem_availables.mp ha).1 hn))
  have hne : availables A visited ≠ [] := by
    intro hav
    apply hT
    rw [hav]
    rfl
  simp [choose_city, hs, hsc, hne, hT]

/-- Claim C5: for the current city and every unvisited city the selection
weight is `pheromones[c,y]^alpha * (1/distance[c,y])^beta`, the weights are
normalized by their sum into a probability distribution (summing to 1), the
next city is sampled by weighted random choice over exactly the unvisited
set (any candidate of positive weight can be drawn, so the choice is not an
argmax), and an infinite distance drives a candidate's score to 0. -/
theorem choose_city_spec (A : ACO) (start : ℕ) (visited : List ℕ) (r : ℕ)
    (hpd : A.pheromones.dim = A.cities.dim)
    (hn : A.n_cities ≤ A.cities.dim) (hs : start < A.cities.dim) :
    (∀ c, choose_city A start visited r = .ok c →
        c ∈ availables A visited ∧ c < A.n_cities ∧ c ∉ visited)
  ∧ (((availables A visited).map (scoreQ A start)).sum ≠ 0 →
        choose_city A start visited r = .ok (pyChoicesPick (availables A visited)
          (((availables A visited).map (scoreQ A start)).map
            (fun s => s / ((availables A visited).map (scoreQ A start)).sum)) r)
      ∧ (((availables A visited).map (scoreQ A start)).map
            (fun s => s / ((availables A visited).map (scoreQ A start)).sum)).sum = 1)
  ∧ (∀ y ∈ availables A visited, 0 < scoreQ A start y →
        0 < ((availables A visited).map (scoreQ A start)).sum →
        ∃ r2, choose_city A start visited r2 = .ok y)
  ∧ (∀ y, 0 < A.beta → A.cities.entry start y = ⊤ → scoreQ A start y = 0) := by
  refine ⟨?_, ?_, ?_, ?_⟩
  · intro c hc
    have hm := choose_city_ok_mem hc
    have hmi := mem_availables.mp hm
    exact ⟨hm, hmi.1, hmi.2⟩
  · intro hT
    refine ⟨choose_city_eq A start visited r hpd hn hs hT, ?_⟩
    rw [sum_map_div, div_self hT]
  · intro y hy hposy hTpos
    obtain ⟨r2, hr2⟩ := pyChoicesPick_map_reaches (availables A visited)
      (fun s => scoreQ A start s / ((availables A visited).map (scoreQ A start)).sum)
      y hy (div_pos hposy hTpos)
    refine ⟨r2, ?_⟩
    rw [choose_city_eq A start visited r2 hpd hn hs (ne_of_gt hTpos), List.map_map]
    exact congrArg Except.ok hr2
  · intro y hb htop
    unfold scoreQ
    rw [htop]
    rw [show invd ⊤ = 0 from rfl]
    rw [zero_zpow _ (ne_of_gt hb), mul_zero]

/-- Witness for C5 at the concrete 2-city state `acoW`. -/
theorem choose_city_spec_witness :
    (∀ c, choose_city acoW 0 [0] 0 = .ok c →
        c ∈ availables acoW [0] ∧ c < acoW.n_cities ∧ c ∉ [0])
  ∧ (((availables acoW [0]).map (scoreQ acoW 0)).sum ≠ 0 →
        choose_city acoW 0 [0] 0 = .ok (pyChoicesPick (availables acoW [0])
          (((availables acoW [0]).map (scoreQ acoW 0)).map
            (fun s => s / ((availables acoW [0]).map (scoreQ acoW 0)).sum)) 0)
      ∧ (((availables acoW [0]).map (scoreQ acoW 0)).map
            (fun s => s / ((availables acoW [0]).map (scoreQ acoW 0)).sum)).sum = 1)
  ∧ (∀ y ∈ availables acoW [0], 0 < scoreQ acoW 0 y →
        0 < ((availables acoW [0]).map (scoreQ acoW 0)).sum →
        ∃ r2, choose_city acoW 0 [0] r2 = .ok y)
  ∧ (∀ y, 0 < acoW.beta → acoW.cities.entry 0 y = ⊤ → scoreQ acoW 0 y = 0) :=
  choose_city_spec acoW 0 [0] 0 (by decide) (by decide) (by decide)

theorem pyMat_get_ok {α : Type} {m : PyMat α} {i j : ℕ} {v : α}
    (h : m.get i j = .ok v) : v = m.entry i j ∧ i < m.dim ∧ j < m.dim := by
  unfold PyMat.get at h
  split at h
  · rename_i hb
    exact ⟨(Except.ok.inj h).symm, hb.1, hb.2⟩
  · exact Except.noConfusion h

theorem add_one_move_ok {A A2 : ACO} {mv : ℕ × ℕ}
    (h : add_one_move A mv = .ok A2) :
    (∀ x y, A2.pheromones.entry x y = A.pheromones.entry x y +
      ((if (x, y) = mv then (1 : ℚ) else 0) + (if (y, x) = mv then (1 : ℚ) else 0)) *
        invd (A.cities.entry x y))
  ∧ A2.cities = A.cities ∧ A2.decay = A.decay := by
  obtain ⟨a, b⟩ := mv
  unfold add_one_move at h
  rw [bind_ok_iff] at h
  obtain ⟨p, hp, h⟩ := h
  rw [bind_ok_iff] at h
  obtain ⟨d, hd, h⟩ := h
  rw [bind_ok_iff] at h
  obtain ⟨p2, hp2, h⟩ := h
  rw [bind_ok_iff] at h
  obtain ⟨d2, hd2, h⟩ := h
  obtain ⟨rfl, _, _⟩ := pyMat_get_ok hp
  obtain ⟨rfl, _, _⟩ := pyMat_get_ok hd
  obtain ⟨rfl, _, _⟩ := pyMat_get_ok hp2
  obtain ⟨rfl, _, _⟩ := pyMat_get_ok hd2
  have hA2 := Except.ok.inj h
  subst hA2
  refine ⟨?_, rfl, rfl⟩
  intro x y
  simp only [pMatSet, Prod.mk.injEq]
  by_cases h1 : x = b ∧ y = a
  · obtain ⟨rfl, rfl⟩ := h1
    rw [if_pos ⟨rfl, rfl⟩]
    by_cases hxy : x = y
    · subst hxy
      simp
      ring
    · rw [if_neg (fun hh => hxy hh.1), if_neg (fun hh => hxy hh.1), if_pos ⟨rfl, rfl⟩]
      ring
  · rw [if_neg h1]
    by_cases h2 : x = a ∧ y = b
    · obtain ⟨rfl, rfl⟩ := h2
      rw [if_pos ⟨rfl, rfl⟩, if_pos ⟨rfl, rfl⟩]
      rw [if_neg (fun hh => h1 ⟨hh.2, hh.1⟩)]
      ring
    · rw [if_neg h2, if_neg h2, if_neg (fun hh => h1 ⟨hh.2, hh.1⟩)]
      ring

theorem addPherLoop_ok : ∀ (edges : List (ℕ × ℕ)) (A A2 : ACO),
    addPherLoop A edges = .ok A2 →
    (∀ x y, A2.pheromones.entry x y = A.pheromones.entry x y +
      ((edges.count (x, y) : ℚ) + (edges.count (y, x) : ℚ)) *
        invd (A.cities.entry x y))
  ∧ A2.cities = A.cities ∧ A2.decay = A.decay
  | [], A, A2, h => by
      have hA := Except.ok.inj h
      subst hA
      exact ⟨fun x y => by simp, rfl, rfl⟩
  | mv :: t, A, A2, h => by
      simp only [addPherLoop] at h
      rw [bind_ok_iff] at h
      obtain ⟨A1, h1, h⟩ := h
      obtain ⟨he1, hc1, hd1⟩ := add_one_move_ok h1
      obtain ⟨he2, hc2, hd2⟩ := addPherLoop_ok t A1 A2 h
      refine ⟨?_, hc2.trans hc1, hd2.trans hd1⟩
      intro x y
      rw [he2 x y, he1 x y, hc1, List.count_cons, List.count_cons]
      push_cast
      by_cases e1 : (x, y) = mv
      · subst e1
        by_cases e2 : (y, x) = (x, y)
        · have hyx : y = x := (Prod.mk.injEq y x x y).mp e2 |>.1
          subst hyx
          simp
          ring
        · have e2s : ¬ (x, y) = (y, x) := fun hh => e2 hh.symm
          simp [e2, e2s, beq_iff_eq]
          ring
      · by_cases e2 : (y, x) = mv
        · subst e2
          have e1s : ¬ (y, x) = (x, y) := fun hh => e1 hh.symm
          simp [e1, e1s, beq_iff_eq]
          ring
        · have e1s : ¬ mv = (x, y) := fun hh => e1 hh.symm
          have e2s : ¬ mv = (y, x) := fun hh => e2 hh.symm
          simp [e1, e2, e1s, e2s, beq_iff_eq]

/-- Claim C7: `add_pheromones` increments exactly the two symmetric entries of
each edge of the given path, by the inverse distances of the two directed
entries, and leaves every entry not belonging to some edge (in either
direction) unchanged. -/
theorem add_pheromones_spec (A A2 : ACO) (p : Path) (edges : List (ℕ × ℕ)) (a b : ℕ)
    (hp : p.path = some edges)
    (hok : add_pheromones A p = .ok A2) :
    (∀ x y, (x, y) ∉ edges → (y, x) ∉ edges →
        A2.pheromones.entry x y = A.pheromones.entry x y)
  ∧ (edges.count (a, b) = 1 → edges.count (b, a) = 0 →
        A2.pheromones.entry a b = A.pheromones.entry a b + invd (A.cities.entry a b)
      ∧ A2.pheromones.entry b a = A.pheromones.entry b a + invd (A.cities.entry b a)) := by
  unfold add_pheromones at hok
  rw [hp] at hok
  obtain ⟨hent, hcit, hdec⟩ := addPherLoop_ok edges A A2 hok
  constructor
  · intro x y hx hy
    rw [hent x y, List.count_eq_zero.mpr hx, List.count_eq_zero.mpr hy]
    push_cast
    ring
  · intro h1 h2
    constructor
    · rw [hent a b, h1, h2]
      push_cast
      ring
    · rw [hent b a, h2, h1]
      push_cast
      ring

/-- Witness for C7: reinforcing the single edge `(0, 1)` on `acoW`. -/
theorem add_pheromones_spec_witness :
    (∀ x y, (x, y) ∉ [(0, 1)] → (y, x) ∉ [(0, 1)] →
        acoWA.pheromones.entry x y = acoW.pheromones.entry x y)
  ∧ (List.count (0, 1) [(0, 1)] = 1 → List.count (1, 0) [(0, 1)] = 0 →
        acoWA.pheromones.entry 0 1 = acoW.pheromones.entry 0 1 + invd (acoW.cities.entry 0 1)
      ∧ acoWA.pheromones.entry 1 0 = acoW.pheromones.entry 1 0 + invd (acoW.cities.entry 1 0)) :=
  add_pheromones_spec acoW acoWA ⟨some [(0, 1)], ((1 : ℚ) : PyFloat)⟩ [(0, 1)] 0 1
    rfl (by rfl)

theorem evaporation_entry (A : ACO) (x y : ℕ) :
    (evaporation A).pheromones.entry x y = A.pheromones.entry x y * A.decay := rfl

theorem runSteps_pos : ∀ (steps : List PStep) (A A2 : ACO),
    runSteps A steps = .ok A2 →
    0 < A.decay →
    (∀ x y, 0 ≤ invd (A.cities.entry x y)) →
    (∀ x y, 0 < A.pheromones.entry x y) →
    (∀ x y, 0 < A2.pheromones.entry x y) ∧ A2.cities = A.cities ∧ A2.decay = A.decay
  | [], A, A2, h, _, _, hph => by
      have hA := Except.ok.inj h
      subst hA
      exact ⟨hph, rfl, rfl⟩
  | .reinforce p :: t, A, A2, h, hd, hcit, hph => by
      simp only [runSteps] at h
      split at h
      · exact Except.noConfusion h
      · rename_i A1 hadd
        unfold add_pheromones at hadd
        cases hpp : p.path with
        | none => rw [hpp] at hadd; exact Except.noConfusion hadd
        | some edges =>
            rw [hpp] at hadd
            obtain ⟨hent, hcit1, hdec1⟩ := addPherLoop_ok edges A A1 hadd
            have hpos1 : ∀ x y, 0 < A1.pheromones.entry x y := by
              intro x y
              rw [hent x y]
              exact add_pos_of_pos_of_nonneg (hph x y)
                (mul_nonneg (add_nonneg (Nat.cast_nonneg _) (Nat.cast_nonneg _))
                  (hcit x y))
            have hrec := runSteps_pos t A1 A2 h
              (by rw [hdec1]; exact hd)
              (by intro x y; rw [hcit1]; exact hcit x y) hpos1
            exact ⟨hrec.1, hrec.2.1.trans hcit1, hrec.2.2.trans hdec1⟩
  | .evap :: t, A, A2, h, hd, hcit, hph => by
      simp only [runSteps] at h
      have hrec := runSteps_pos t (evaporation A) A2 h hd hcit
        (fun x y => by rw [evaporation_entry]; exact mul_pos (hph x y) hd)
      exact ⟨hrec.1, hrec.2.1, hrec.2.2⟩

theorem evaporation_iter_entry : ∀ (m : ℕ) (A : ACO) (x y : ℕ),
    (evaporation^[m] A).pheromones.entry x y = A.pheromones.entry x y * A.decay ^ m ∧
    (evaporation^[m] A).decay = A.decay
  | 0, A, x, y => by simp
  | m + 1, A, x, y => by
      rw [Function.iterate_succ_apply']
      obtain ⟨he, hd⟩ := evaporation_iter_entry m A x y
      constructor
      · rw [evaporation_entry, he, hd, pow_succ]
        ring
      · exact hd

/-- Claim C8: `evaporation` multiplies every pheromone entry by the decay
factor; with decay in `(0, 1]`, distances that are positive-or-infinite and
positive pheromone entries (as the uniform all-ones initialization gives),
every entry stays nonnegative across any sequence of reinforcements and
evaporations; repeated evaporation alone strictly decreases every entry when
decay is in `(0, 1)` and preserves every entry when decay equals 1. -/
theorem evaporation_spec (A A2 : ACO) (steps : List PStep)
    (hd0 : 0 < A.decay) (_hd1 : A.decay ≤ 1)
    (hcit : ∀ x y, 0 ≤ invd (A.cities.entry x y))
    (hph : ∀ x y, 0 < A.pheromones.entry x y)
    (hrun : runSteps A steps = .ok A2) :
    (∀ x y, (evaporation A).pheromones.entry x y = A.pheromones.entry x y * A.decay)
  ∧ (∀ x y, 0 ≤ A2.pheromones.entry x y)
  ∧ (A.decay < 1 → ∀ m x y,
      (evaporation^[m + 1] A).pheromones.entry x y
        < (evaporation^[m] A).pheromones.entry x y)
  ∧ (A.decay = 1 → ∀ x y,
      (evaporation A).pheromones.entry x y = A.pheromones.entry x y) := by
  obtain ⟨hpos2, _, _⟩ := runSteps_pos steps A A2 hrun hd0 hcit hph
  refine ⟨fun x y => rfl, fun x y => le_of_lt (hpos2 x y), ?_, ?_⟩
  · intro hlt m x y
    obtain ⟨he1, _⟩ := evaporation_iter_entry (m + 1) A x y
    obtain ⟨he0, _⟩ := evaporation_iter_entry m A x y
    rw [he1, he0]
    have hppos : 0 < A.decay ^ m := pow_pos hd0 m
    have hstep : A.decay ^ (m + 1) < A.decay ^ m := by
      calc A.decay ^ (m + 1) = A.decay ^ m * A.decay := pow_succ A.decay m
        _ < A.decay ^ m * 1 := mul_lt_mul_of_pos_left hlt hppos
        _ = A.decay ^ m := mul_one _
    exact mul_lt_mul_of_pos_left hstep (hph x y)
  · intro h1 x y
    rw [evaporation_entry, h1, mul_one]

/-- Witness for C8 on the 2-city engine with decay 1/2, after one
reinforcement and one evaporation. -/
theorem evaporation_spec_witness :
    (∀ x y, (evaporation acoHalf).pheromones.entry x y
        = acoHalf.pheromones.entry x y * acoHalf.decay)
  ∧ (∀ x y, 0 ≤ acoHalf2.pheromones.entry x y)
  ∧ (acoHalf.decay < 1 → ∀ m x y,
      (evaporation^[m + 1] acoHalf).pheromones.entry x y
        < (evaporation^[m] acoHalf).pheromones.entry x y)
  ∧ (acoHalf.decay = 1 → ∀ x y,
      (evaporation acoHalf).pheromones.entry x y = acoHalf.pheromones.entry x y) :=
  evaporation_spec acoHalf acoHalf2
    [PStep.reinforce ⟨some [(0, 1)], ((1 : ℚ) : PyFloat)⟩, PStep.evap]
    (by norm_num [acoHalf, aco_init])
    (by norm_num [acoHalf, aco_init])
    (by
      intro x y
      show 0 ≤ invd (mat2.entry x y)
      unfold mat2
      dsimp only
      split
      · show (0 : ℚ) ≤ (1 : ℚ)⁻¹
        norm_num
      · norm_num [invd])
    (fun x y => one_pos)
    (by rfl)

theorem findLoop_mono : ∀ (m : ℕ) (A : ACO) (res : Path) (rng : ℕ → ℕ) (k : ℕ)
    (out : Path) (A2 : ACO) (k2 : ℕ),
    findLoop A m res rng k = .ok (out, A2, k2) → out.weight ≤ res.weight
  | 0, A, res, rng, k, out, A2, k2, h => by
      simp only [findLoop, Except.ok.injEq, Prod.mk.injEq] at h
      exact le_of_eq (congrArg Path.weight h.1.symm)
  | m + 1, A, res, rng, k, out, A2, k2, h => by
      simp only [findLoop] at h
      rw [bind_ok_iff] at h
      obtain ⟨pk, hgp, h⟩ := h
      rw [bind_ok_iff] at h
      obtain ⟨b, hmin, h⟩ := h
      rw [bind_ok_iff] at h
      obtain ⟨A1, hadd, h⟩ := h
      have hrec := findLoop_mono m (evaporation A1)
        (if b.weight < res.weight then b else res) rng pk.2 out A2 k2 h
      by_cases hlt : b.weight < res.weight
      · rw [if_pos hlt] at hrec
        exact hrec.trans (le_of_lt hlt)
      · rw [if_neg hlt] at hrec
        exact hrec

/-- Counterexample to claim C9: on the 3-city line instance `mat3` the single
ant's first (and only) tour is the real Hamiltonian cycle
`[(0,1), (1,2), (2,0)]`, but its forced closing edge has infinite distance,
so its weight is `inf`; `inf < inf` is false, the sentinel `Path(None)` is
never replaced, and `find_best` returns a result whose path is `None` — the
first real tour did not replace the initial best. -/
theorem find_best_infinite_first_tour :
    Except.map (fun rr => rr.1.map Path.path) (get_paths aco3 rng0 0)
        = .ok [some [(0, 1), (1, 2), (2, 0)]]
  ∧ Except.map (fun rr => rr.1.path) (find_best aco3 rng0 0) = .ok none := by
  decide

/-- Claim C9 as amended: the global best starts as the sentinel of weight
infinity and undefined path; each iteration replaces it exactly when the
iteration's minimum-weight tour compares strictly smaller; the first real
tour replaces the sentinel whenever its weight is finite (a tour whose
forced closing edge is infinite leaves the sentinel in place); and for
`n_iter = m + 1 ≥ 1` the returned tour's weight never exceeds the weight of
iteration 1's best tour. -/
theorem find_best_spec (A : ACO) (rng : ℕ → ℕ) (k : ℕ) (m : ℕ)
    (paths : List Path) (k1 : ℕ) (b : Path) (A1 : ACO)
    (hm : A.n_iter = m + 1)
    (hgp : get_paths A rng k = .ok (paths, k1))
    (hmin : pyMin paths = .ok b)
    (hadd : add_pheromones A b = .ok A1) :
    (∀ (res : Path) (m2 : ℕ), findLoop A (m2 + 1) res rng k =
        findLoop (evaporation A1) m2 (if b.weight < res.weight then b else res) rng k1)
  ∧ find_best A rng k =
      findLoop (evaporation A1) m
        (if b.weight < (⊤ : PyFloat) then b else ⟨none, ⊤⟩) rng k1
  ∧ (b.weight ≠ ⊤ →
      find_best A rng k = findLoop (evaporation A1) m b rng k1)
  ∧ (∀ (res : Path) (A2 : ACO) (k2 : ℕ),
      find_best A rng k = .ok (res, A2, k2) → res.weight ≤ b.weight) := by
  have hstep : ∀ (res : Path) (m2 : ℕ), findLoop A (m2 + 1) res rng k =
      findLoop (evaporation A1) m2 (if b.weight < res.weight then b else res) rng k1 := by
    intro res m2
    simp only [findLoop, hgp, hmin, hadd, Bind.bind, Except.bind]
  have hmain : find_best A rng k =
      findLoop (evaporation A1) m
        (if b.weight < (⊤ : PyFloat) then b else ⟨none, ⊤⟩) rng k1 := by
    unfold find_best
    rw [hm]
    exact hstep ⟨none, ⊤⟩ m
  refine ⟨hstep, hmain, ?_, ?_⟩
  · intro hne
    rw [hmain, if_pos (lt_top_iff_ne_top.mpr hne)]
  · intro res A2 k2 hfb
    rw [hmain] at hfb
    have hmono := findLoop_mono m (evaporation A1)
      (if b.weight < (⊤ : PyFloat) then b else ⟨none, ⊤⟩) rng k1 res A2 k2 hfb
    by_cases hlt : b.weight < (⊤ : PyFloat)
    · rw [if_pos hlt] at hmono
      exact hmono
    · rw [if_neg hlt] at hmono
      have hb : b.weight = ⊤ := by
        by_contra hne
        exact hlt (lt_top_iff_ne_top.mpr hne)
      rw [hb]
      exact hmono

/-- Witness for the amended C9 on the finite 2-city run of `acoW`. -/
theorem find_best_spec_witness :
    (∀ (res : Path) (m2 : ℕ), findLoop acoW (m2 + 1) res rng0 0 =
        findLoop (evaporation acoWB) m2 (if pW.weight < res.weight then pW else res) rng0 1)
  ∧ find_best acoW rng0 0 =
      findLoop (evaporation acoWB) 0
        (if pW.weight < (⊤ : PyFloat) then pW else ⟨none, ⊤⟩) rng0 1
  ∧ (pW.weight ≠ ⊤ →
      find_best acoW rng0 0 = findLoop (evaporation acoWB) 0 pW rng0 1)
  ∧ (∀ (res : Path) (A2 : ACO) (k2 : ℕ),
      find_best acoW rng0 0 = .ok (res, A2, k2) → res.weight ≤ pW.weight) :=
  find_best_spec acoW rng0 0 0 [pW] 1 pW acoWB rfl (by decide) (by decide) (by rfl)

end AcoTsp
